import Mathlib

/-!
Shallow embedding of the Black-Scholes-Merton pricing notebook
(`Finance/python-black-scholes-merton`).

The notebook's only completed function is the geometric-Brownian-motion
terminal-price sampler `bsm`, in a scalar and a vectorized (numpy) form.
The option-value estimator cell and the closed-form evaluator `call` are
left unfilled in the source, so those operations are modelled here from
the accompanying design document and checked against it.
-/

open MeasureTheory ProbabilityTheory Filter
open scoped ENNReal NNReal Topology

namespace QfrmBsm

/-- The terminal-price sampler from the notebook, scalar form:
`def bsm(s_0, r, sigma, t, z): return s_0 * np.exp((r - 0.5*sigma*sigma)*t + sigma * np.sqrt(t)*z)`. -/
noncomputable def bsm (s_0 r sigma t z : ℝ) : ℝ :=
  s_0 * Real.exp ((r - 0.5 * sigma * sigma) * t + sigma * Real.sqrt t * z)

/-- The vectorized terminal-price sampler: the same numpy expression applied to a
vector `z`, following numpy broadcasting (scalar times vector, scalar plus vector
and `np.exp` of a vector all act elementwise). -/
noncomputable def bsmVec (s_0 r sigma t : ℝ) (z : List ℝ) : List ℝ :=
  (((z.map fun zi => sigma * Real.sqrt t * zi).map
      fun w => (r - 0.5 * sigma * sigma) * t + w).map Real.exp).map
    fun v => s_0 * v

/-- Error taxonomy of the design document (§7): invalid parameters are rejected at
the boundary of each public operation; numeric domain failures deep in a formula
are a distinguished kind. -/
inductive PricingError
  | invalidParameter
  | numericDomainError

/-- Modelled from the spec: `standard_normal_cdf(x)`, the cumulative distribution
function Φ of a standard normal random variable, definable as the integral of
the standard normal density over `(-∞, x]`.  The notebook delegates this to
`scipy.stats.norm`, whose implementation is not part of the repository. -/
noncomputable def standard_normal_cdf (x : ℝ) : ℝ :=
  ∫ u in Set.Iic x, gaussianPDFReal 0 1 u

/-- Modelled from the spec: the quantity `d₁ = [ln(S₀/K) + (r + σ²/2)·t] / (σ·√t)`
of the closed-form evaluator (§4.4). -/
noncomputable def d1 (s r sigma t k : ℝ) : ℝ :=
  (Real.log (s / k) + (r + sigma ^ 2 / 2) * t) / (sigma * Real.sqrt t)

/-- Modelled from the spec: the quantity `d₂ = d₁ − σ·√t` of the closed-form
evaluator (§4.4). -/
noncomputable def d2 (s r sigma t k : ℝ) : ℝ :=
  d1 s r sigma t k - sigma * Real.sqrt t

/-- Modelled from the spec: the Black-Scholes-Merton closed-form call price
`C = Φ(d₁)·S₀ − Φ(d₂)·K·e^(−r·t)` (§4.4). -/
noncomputable def bsmCallFormula (s r sigma t k : ℝ) : ℝ :=
  standard_normal_cdf (d1 s r sigma t k) * s -
    standard_normal_cdf (d2 s r sigma t k) * k * Real.exp (-(r * t))

/-- Modelled from the spec: the closed-form evaluator `call` is left as `??` in
the notebook cell; per §4.4 and §7 it validates its parameters at the boundary
(spot, volatility, maturity and strike must be positive) and otherwise returns
the closed-form price. -/
noncomputable def call (s r sigma t k : ℝ) : Except PricingError ℝ :=
  if s ≤ 0 ∨ sigma ≤ 0 ∨ t ≤ 0 ∨ k ≤ 0 then .error .invalidParameter
  else .ok (bsmCallFormula s r sigma t k)

/-- The call payoff of one simulated terminal price: `max (S_T - K) 0` where
`S_T` is the sampler's output on the draw `z`. -/
noncomputable def callPayoff (s_0 r sigma t k z : ℝ) : ℝ :=
  max (bsm s_0 r sigma t z - k) 0

/-- Modelled from the spec: the Option Value Estimator (§4.3), whose notebook
cell is empty; it maps simulated terminal prices to discounted average payoff
`V = e^(−r·t) · (1/n) · Σ max(S_i − K, 0)`. -/
noncomputable def option_value_estimate (r t k : ℝ) (prices : List ℝ) : ℝ :=
  Real.exp (-(r * t)) * ((prices.map fun si => max (si - k) 0).sum / prices.length)

/-- Modelled from the spec: `monte_carlo_call_price` (§6), whose notebook cell is
empty; the externally supplied standard-normal draws are its `z` argument, it
validates parameters and sample count at the boundary (§7) and otherwise feeds
the sampled terminal prices to the option value estimator. -/
noncomputable def monte_carlo_call_price (s r sigma t k : ℝ) (z : List ℝ) :
    Except PricingError ℝ :=
  if s ≤ 0 ∨ sigma ≤ 0 ∨ t ≤ 0 ∨ k ≤ 0 ∨ z.length < 1 then .error .invalidParameter
  else .ok (option_value_estimate r t k (bsmVec s r sigma t z))

/-- The Monte Carlo estimate on a batch of `n` draws, as a function of the draw
vector: the discounted average call payoff of the `n` sampled terminal prices. -/
noncomputable def mcEstimate (s_0 r sigma t k : ℝ) (n : ℕ) (z : Fin n → ℝ) : ℝ :=
  Real.exp (-(r * t)) * ((∑ i, callPayoff s_0 r sigma t k (z i)) / n)

/-- The standard normal distribution on ℝ. -/
noncomputable def stdGaussian : Measure ℝ := gaussianReal 0 1

/-- The joint distribution of `n` independent standard normal draws. -/
noncomputable def gaussianPi (n : ℕ) : Measure (Fin n → ℝ) :=
  Measure.pi fun _ => stdGaussian

instance : IsProbabilityMeasure stdGaussian :=
  inferInstanceAs (IsProbabilityMeasure (gaussianReal 0 1))

instance (n : ℕ) : IsProbabilityMeasure (gaussianPi n) :=
  inferInstanceAs (IsProbabilityMeasure (Measure.pi fun _ : Fin n => stdGaussian))

lemma bsmVec_eq_map (s_0 r sigma t : ℝ) (z : List ℝ) :
    bsmVec s_0 r sigma t z = z.map (bsm s_0 r sigma t) := by
  simp only [bsmVec, List.map_map]
  rfl

lemma bsm_eq_halfsq (s_0 r sigma t z : ℝ) :
    bsm s_0 r sigma t z =
      s_0 * Real.exp ((r - sigma ^ 2 / 2) * t + sigma * Real.sqrt t * z) := by
  simp only [bsm]
  ring_nf

lemma gauss_pdf_eq (x : ℝ) :
    gaussianPDFReal 0 1 x = (Real.sqrt (2 * Real.pi))⁻¹ * Real.exp (-x ^ 2 / 2) := by
  simp [gaussianPDFReal]

lemma gauss_pdf_even (x : ℝ) : gaussianPDFReal 0 1 (-x) = gaussianPDFReal 0 1 x := by
  simp [gauss_pdf_eq, neg_sq]

lemma continuous_gauss_pdf : Continuous (gaussianPDFReal 0 1) := by
  have h : gaussianPDFReal 0 1 = fun x => (Real.sqrt (2 * Real.pi))⁻¹ * Real.exp (-x ^ 2 / 2) :=
    funext gauss_pdf_eq
  rw [h]
  fun_prop

lemma gauss_tilt (c x : ℝ) :
    Real.exp (c * x) * gaussianPDFReal 0 1 x =
      Real.exp (c ^ 2 / 2) * gaussianPDFReal 0 1 (x - c) := by
  rw [gauss_pdf_eq, gauss_pdf_eq, mul_left_comm, mul_left_comm (Real.exp (c ^ 2 / 2))]
  congr 1
  rw [← Real.exp_add, ← Real.exp_add]
  congr 1
  ring

lemma integrable_exp_mul_gauss (c : ℝ) :
    Integrable (fun x => Real.exp (c * x) * gaussianPDFReal 0 1 x) volume := by
  have h : (fun x => Real.exp (c * x) * gaussianPDFReal 0 1 x) =
      fun x => Real.exp (c ^ 2 / 2) * gaussianPDFReal 0 1 (x - c) :=
    funext fun x => gauss_tilt c x
  rw [h]
  exact ((integrable_gaussianPDFReal 0 1).comp_sub_right c).const_mul _

lemma integral_stdGaussian_eq (g : ℝ → ℝ) :
    ∫ x, g x ∂stdGaussian = ∫ x, gaussianPDFReal 0 1 x * g x := by
  rw [stdGaussian, gaussianReal_of_var_ne_zero 0 one_ne_zero]
  have h : gaussianPDF 0 1 = fun x => ((gaussianPDFReal 0 1 x).toNNReal : ℝ≥0∞) := rfl
  rw [h, integral_withDensity_eq_integral_smul ((measurable_gaussianPDFReal 0 1).real_toNNReal) g]
  congr 1
  funext x
  rw [NNReal.smul_def, Real.coe_toNNReal _ (gaussianPDFReal_nonneg 0 1 x), smul_eq_mul]

lemma setIntegral_gauss_pdf_Ioi (a : ℝ) :
    ∫ x in Set.Ioi a, gaussianPDFReal 0 1 x = standard_normal_cdf (-a) := by
  rw [standard_normal_cdf]
  have h := integral_comp_neg_Iic (-a) (gaussianPDFReal 0 1)
  rw [neg_neg] at h
  rw [← h]
  exact setIntegral_congr_fun measurableSet_Iic fun x _ => gauss_pdf_even x

lemma setIntegral_Ioi_sub (f : ℝ → ℝ) (a c : ℝ) :
    ∫ x in Set.Ioi a, f (x - c) = ∫ x in Set.Ioi (a - c), f x := by
  have A : MeasurableEmbedding fun x : ℝ => x - c :=
    (Homeomorph.subRight c).isClosedEmbedding.measurableEmbedding
  have hmap : Measure.map (fun x : ℝ => x - c) volume = volume := by
    have h1 : (fun x : ℝ => x - c) = fun x : ℝ => x + -c := funext fun x => sub_eq_add_neg x c
    rw [h1]
    exact map_add_right_eq_self volume (-c)
  have B := A.setIntegral_map (μ := volume) f (Set.Ioi (a - c))
  rw [hmap] at B
  have hpre : Set.preimage (fun x : ℝ => x - c) (Set.Ioi (a - c)) = Set.Ioi a := by
    ext x
    simp [Set.mem_Ioi, sub_lt_sub_iff_right]
  rw [hpre] at B
  exact B.symm

lemma callPayoff_nonneg (s r sigma t k x : ℝ) : 0 ≤ callPayoff s r sigma t k x :=
  le_max_right _ _

lemma continuous_callPayoff (s r sigma t k : ℝ) : Continuous (callPayoff s r sigma t k) := by
  unfold callPayoff bsm
  fun_prop

lemma callPayoff_le_exp (s r sigma t k : ℝ) (hs : 0 ≤ s) (hk : 0 ≤ k) (x : ℝ) :
    |callPayoff s r sigma t k x| ≤
      s * Real.exp ((r - 0.5 * sigma * sigma) * t) * Real.exp (sigma * Real.sqrt t * x) := by
  rw [abs_of_nonneg (callPayoff_nonneg s r sigma t k x)]
  unfold callPayoff bsm
  apply max_le
  · calc s * Real.exp ((r - 0.5 * sigma * sigma) * t + sigma * Real.sqrt t * x) - k
        ≤ s * Real.exp ((r - 0.5 * sigma * sigma) * t + sigma * Real.sqrt t * x) :=
          sub_le_self _ hk
      _ = s * Real.exp ((r - 0.5 * sigma * sigma) * t) * Real.exp (sigma * Real.sqrt t * x) := by
          rw [Real.exp_add]; ring
  · positivity

lemma integrable_mul_pdf_of_le (f : ℝ → ℝ) (hf : Continuous f) (A c : ℝ)
    (hb : ∀ x, |f x| ≤ A * Real.exp (c * x)) :
    Integrable (fun x => f x * gaussianPDFReal 0 1 x) volume := by
  refine Integrable.mono ((integrable_exp_mul_gauss c).const_mul A)
    ((hf.mul continuous_gauss_pdf).aestronglyMeasurable) (Eventually.of_forall fun x => ?_)
  have h0 : 0 ≤ A * Real.exp (c * x) := le_trans (abs_nonneg _) (hb x)
  have hpdf := gaussianPDFReal_nonneg 0 1 x
  rw [Real.norm_eq_abs, Real.norm_eq_abs, abs_mul, abs_of_nonneg hpdf,
    show A * (Real.exp (c * x) * gaussianPDFReal 0 1 x) =
      (A * Real.exp (c * x)) * gaussianPDFReal 0 1 x from by ring,
    abs_mul, abs_of_nonneg h0, abs_of_nonneg hpdf]
  exact mul_le_mul_of_nonneg_right (hb x) hpdf

lemma integrable_stdGaussian_of_le (f : ℝ → ℝ) (hf : Continuous f) (A c : ℝ)
    (hb : ∀ x, |f x| ≤ A * Real.exp (c * x)) :
    Integrable f stdGaussian := by
  have hlt : ∀ᵐ x ∂(volume : Measure ℝ), gaussianPDF 0 1 x < ∞ :=
    Eventually.of_forall fun x => ENNReal.ofReal_lt_top
  rw [stdGaussian, gaussianReal_of_var_ne_zero 0 one_ne_zero,
    integrable_withDensity_iff (measurable_gaussianPDF 0 1) hlt]
  have h : (fun x => f x * (gaussianPDF 0 1 x).toReal) =
      fun x => f x * gaussianPDFReal 0 1 x := by
    funext x
    simp only [gaussianPDF_def, ENNReal.toReal_ofReal (gaussianPDFReal_nonneg 0 1 x)]
  rw [h]
  exact integrable_mul_pdf_of_le f hf A c hb

lemma integrable_callPayoff (s r sigma t k : ℝ) (hs : 0 ≤ s) (hk : 0 ≤ k) :
    Integrable (callPayoff s r sigma t k) stdGaussian :=
  integrable_stdGaussian_of_le _ (continuous_callPayoff s r sigma t k) _ _
    (callPayoff_le_exp s r sigma t k hs hk)

lemma memLp_two_callPayoff (s r sigma t k : ℝ) (hs : 0 ≤ s) (hk : 0 ≤ k) :
    Memℒp (callPayoff s r sigma t k) 2 stdGaussian := by
  rw [memℒp_two_iff_integrable_sq (continuous_callPayoff s r sigma t k).aestronglyMeasurable]
  apply integrable_stdGaussian_of_le _ ((continuous_callPayoff s r sigma t k).pow 2)
    ((s * Real.exp ((r - 0.5 * sigma * sigma) * t)) ^ 2) (2 * (sigma * Real.sqrt t))
  intro x
  have h1 := callPayoff_le_exp s r sigma t k hs hk x
  have h0 := callPayoff_nonneg s r sigma t k x
  rw [abs_of_nonneg (pow_nonneg h0 2)]
  calc callPayoff s r sigma t k x ^ 2
      = |callPayoff s r sigma t k x| ^ 2 := by rw [abs_of_nonneg h0]
    _ ≤ (s * Real.exp ((r - 0.5 * sigma * sigma) * t) * Real.exp (sigma * Real.sqrt t * x)) ^ 2 :=
        pow_le_pow_left₀ (abs_nonneg _) h1 2
    _ = (s * Real.exp ((r - 0.5 * sigma * sigma) * t)) ^ 2 *
          Real.exp (2 * (sigma * Real.sqrt t) * x) := by
        rw [mul_pow, pow_two (Real.exp (sigma * Real.sqrt t * x)), ← Real.exp_add]
        congr 1
        ring

lemma setIntegral_affine_exp_pdf (A k d u : ℝ) :
    ∫ x in Set.Ioi u, (A * Real.exp (d * x) - k) * gaussianPDFReal 0 1 x =
      A * (Real.exp (d ^ 2 / 2) * standard_normal_cdf (d - u)) -
        k * standard_normal_cdf (-u) := by
  have hsplit : ∀ x ∈ Set.Ioi u, (A * Real.exp (d * x) - k) * gaussianPDFReal 0 1 x =
      A * (Real.exp (d * x) * gaussianPDFReal 0 1 x) - k * gaussianPDFReal 0 1 x := by
    intro x _
    ring
  rw [setIntegral_congr_fun measurableSet_Ioi hsplit,
    integral_sub (((integrable_exp_mul_gauss d).const_mul A).integrableOn)
      (((integrable_gaussianPDFReal 0 1).const_mul k).integrableOn),
    integral_mul_left, integral_mul_left, setIntegral_gauss_pdf_Ioi u]
  have htilt : ∫ x in Set.Ioi u, Real.exp (d * x) * gaussianPDFReal 0 1 x =
      Real.exp (d ^ 2 / 2) * standard_normal_cdf (d - u) := by
    rw [setIntegral_congr_fun measurableSet_Ioi fun x _ => gauss_tilt d x,
      integral_mul_left, setIntegral_Ioi_sub (gaussianPDFReal 0 1) u d,
      setIntegral_gauss_pdf_Ioi (u - d), neg_sub]
  rw [htilt]

lemma callPayoff_pdf_indicator (s r sigma t k : ℝ) (hs : 0 < s) (hk : 0 < k)
    (hsig : 0 < sigma) (ht : 0 < t) :
    (fun x => gaussianPDFReal 0 1 x * callPayoff s r sigma t k x) =
      Set.indicator
        (Set.Ioi ((Real.log (k / s) - (r - 0.5 * sigma * sigma) * t) / (sigma * Real.sqrt t)))
        (fun x => ((s * Real.exp ((r - 0.5 * sigma * sigma) * t)) *
          Real.exp (sigma * Real.sqrt t * x) - k) * gaussianPDFReal 0 1 x) := by
  have hd : 0 < sigma * Real.sqrt t := mul_pos hsig (Real.sqrt_pos.mpr ht)
  funext x
  have hexp : s * Real.exp ((r - 0.5 * sigma * sigma) * t) * Real.exp (sigma * Real.sqrt t * x) =
      s * Real.exp ((r - 0.5 * sigma * sigma) * t + sigma * Real.sqrt t * x) := by
    rw [Real.exp_add]; ring
  by_cases hx : x ∈ Set.Ioi
      ((Real.log (k / s) - (r - 0.5 * sigma * sigma) * t) / (sigma * Real.sqrt t))
  · rw [Set.indicator_of_mem hx, hexp]
    have hklt : k < s * Real.exp ((r - 0.5 * sigma * sigma) * t + sigma * Real.sqrt t * x) := by
      rw [Set.mem_Ioi, div_lt_iff hd] at hx
      have h1 : Real.log (k / s) <
          (r - 0.5 * sigma * sigma) * t + sigma * Real.sqrt t * x := by linarith
      have h2 : k / s < Real.exp ((r - 0.5 * sigma * sigma) * t + sigma * Real.sqrt t * x) :=
        (Real.log_lt_iff_lt_exp (div_pos hk hs)).mp h1
      calc k = s * (k / s) := by field_simp
        _ < s * Real.exp ((r - 0.5 * sigma * sigma) * t + sigma * Real.sqrt t * x) :=
            mul_lt_mul_of_pos_left h2 hs
    have hmax : callPayoff s r sigma t k x =
        s * Real.exp ((r - 0.5 * sigma * sigma) * t + sigma * Real.sqrt t * x) - k := by
      unfold callPayoff bsm
      exact max_eq_left (sub_nonneg.mpr hklt.le)
    rw [hmax]
    ring
  · rw [Set.indicator_of_not_mem hx]
    have hxle : x ≤ (Real.log (k / s) - (r - 0.5 * sigma * sigma) * t) / (sigma * Real.sqrt t) :=
      not_lt.mp fun hlt => hx hlt
    have hle : s * Real.exp ((r - 0.5 * sigma * sigma) * t + sigma * Real.sqrt t * x) ≤ k := by
      have h1 : (r - 0.5 * sigma * sigma) * t + sigma * Real.sqrt t * x ≤ Real.log (k / s) := by
        rw [← sub_nonneg]
        have h2 : x * (sigma * Real.sqrt t) ≤ Real.log (k / s) - (r - 0.5 * sigma * sigma) * t :=
          (le_div_iff hd).mp hxle
        nlinarith
      have h2 : Real.exp ((r - 0.5 * sigma * sigma) * t + sigma * Real.sqrt t * x) ≤ k / s :=
        (Real.le_log_iff_exp_le (div_pos hk hs)).mp h1
      calc s * Real.exp ((r - 0.5 * sigma * sigma) * t + sigma * Real.sqrt t * x)
          ≤ s * (k / s) := mul_le_mul_of_nonneg_left h2 hs.le
        _ = k := by field_simp
    have hmax : callPayoff s r sigma t k x = 0 := by
      unfold callPayoff bsm
      exact max_eq_right (sub_nonpos.mpr hle)
    rw [hmax, mul_zero]

lemma integral_callPayoff_eq (s r sigma t k : ℝ) (hs : 0 < s) (hk : 0 < k)
    (hsig : 0 < sigma) (ht : 0 < t) :
    ∫ x, callPayoff s r sigma t k x ∂stdGaussian =
      s * Real.exp (r * t) * standard_normal_cdf (d1 s r sigma t k) -
        k * standard_normal_cdf (d2 s r sigma t k) := by
  have hd : 0 < sigma * Real.sqrt t := mul_pos hsig (Real.sqrt_pos.mpr ht)
  have hst : Real.sqrt t ^ 2 = t := Real.sq_sqrt ht.le
  have hd2 : (sigma * Real.sqrt t) ^ 2 = sigma ^ 2 * t := by
    rw [mul_pow, hst]
  have hlog : Real.log (k / s) = -Real.log (s / k) := by
    rw [← Real.log_inv]
    congr 1
    rw [inv_div]
  rw [integral_stdGaussian_eq, callPayoff_pdf_indicator s r sigma t k hs hk hsig ht,
    integral_indicator measurableSet_Ioi, setIntegral_affine_exp_pdf]
  have h1 : sigma * Real.sqrt t -
      (Real.log (k / s) - (r - 0.5 * sigma * sigma) * t) / (sigma * Real.sqrt t) =
      d1 s r sigma t k := by
    rw [d1]
    field_simp
    rw [hlog]
    ring_nf
    nlinarith [hd2]
  have h2 : -((Real.log (k / s) - (r - 0.5 * sigma * sigma) * t) / (sigma * Real.sqrt t)) =
      d2 s r sigma t k := by
    rw [d2, d1]
    field_simp
    rw [hlog]
    ring_nf
    nlinarith [hd2]
  have h3 : s * Real.exp ((r - 0.5 * sigma * sigma) * t) *
      Real.exp ((sigma * Real.sqrt t) ^ 2 / 2) = s * Real.exp (r * t) := by
    rw [mul_assoc, ← Real.exp_add]
    congr 2
    rw [hd2]
    ring
  rw [h1, h2]
  calc s * Real.exp ((r - 0.5 * sigma * sigma) * t) *
        (Real.exp ((sigma * Real.sqrt t) ^ 2 / 2) * standard_normal_cdf (d1 s r sigma t k)) -
        k * standard_normal_cdf (d2 s r sigma t k)
      = s * Real.exp ((r - 0.5 * sigma * sigma) * t) * Real.exp ((sigma * Real.sqrt t) ^ 2 / 2) *
          standard_normal_cdf (d1 s r sigma t k) -
          k * standard_normal_cdf (d2 s r sigma t k) := by ring
    _ = s * Real.exp (r * t) * standard_normal_cdf (d1 s r sigma t k) -
          k * standard_normal_cdf (d2 s r sigma t k) := by rw [h3]

lemma bsmCallFormula_eq_discounted_integral (s r sigma t k : ℝ) (hs : 0 < s) (hk : 0 < k)
    (hsig : 0 < sigma) (ht : 0 < t) :
    bsmCallFormula s r sigma t k =
      Real.exp (-(r * t)) * ∫ x, callPayoff s r sigma t k x ∂stdGaussian := by
  rw [integral_callPayoff_eq s r sigma t k hs hk hsig ht, bsmCallFormula]
  have hexp : Real.exp (-(r * t)) * Real.exp (r * t) = 1 := by
    rw [← Real.exp_add]
    simp
  linear_combination (-(s * standard_normal_cdf (d1 s r sigma t k))) * hexp

lemma bsmCallFormula_nonneg (s r sigma t k : ℝ) (hs : 0 < s) (hk : 0 < k)
    (hsig : 0 < sigma) (ht : 0 < t) :
    0 ≤ bsmCallFormula s r sigma t k := by
  rw [bsmCallFormula_eq_discounted_integral s r sigma t k hs hk hsig ht]
  exact mul_nonneg (Real.exp_pos _).le
    (integral_nonneg fun x => callPayoff_nonneg s r sigma t k x)

lemma map_eval_gaussianPi (n : ℕ) (i : Fin n) :
    Measure.map (fun z : Fin n → ℝ => z i) (gaussianPi n) = stdGaussian := by
  ext s hs
  rw [Measure.map_apply (measurable_pi_apply i) hs]
  have hpre : Set.preimage (fun z : Fin n → ℝ => z i) s =
      Set.pi Set.univ (Function.update (fun _ : Fin n => (Set.univ : Set ℝ)) i s) := by
    ext z
    simp only [Set.mem_preimage, Set.mem_pi, Set.mem_univ, forall_true_left]
    constructor
    · intro hz j
      by_cases hj : j = i
      · subst hj
        rw [Function.update_same]
        exact hz
      · rw [Function.update_noteq hj]
        exact Set.mem_univ _
    · intro hz
      have h := hz i
      rwa [Function.update_same] at h
  rw [hpre, gaussianPi, Measure.pi_pi]
  rw [Finset.prod_eq_single_of_mem i (Finset.mem_univ i) ?_]
  · rw [Function.update_same]
  · intro j _ hj
    rw [Function.update_noteq hj]
    exact measure_univ

lemma iIndepFun_eval (n : ℕ) :
    iIndepFun (fun _ : Fin n => (inferInstance : MeasurableSpace ℝ))
      (fun i (z : Fin n → ℝ) => z i) (gaussianPi n) := by
  rw [iIndepFun_iff_measure_inter_preimage_eq_mul]
  intro S sets hsets
  have h1 : gaussianPi n (⋂ i ∈ S, Set.preimage (fun z : Fin n → ℝ => z i) (sets i)) =
      ∏ i ∈ S, stdGaussian (sets i) := by
    have hset : (⋂ i ∈ S, Set.preimage (fun z : Fin n → ℝ => z i) (sets i)) =
        Set.pi Set.univ fun j => if j ∈ S then sets j else Set.univ := by
      ext z
      simp only [Set.mem_iInter, Set.mem_preimage, Set.mem_pi, Set.mem_univ, forall_true_left]
      constructor
      · intro hz j
        by_cases hj : j ∈ S
        · rw [if_pos hj]
          exact hz j hj
        · rw [if_neg hj]
          trivial
      · intro hz j hj
        have h := hz j
        rwa [if_pos hj] at h
    rw [hset, gaussianPi, Measure.pi_pi]
    have hfac : ∀ j ∈ Finset.univ, stdGaussian (if j ∈ S then sets j else Set.univ) =
        if j ∈ S then stdGaussian (sets j) else 1 := by
      intro j _
      by_cases hj : j ∈ S
      · rw [if_pos hj, if_pos hj]
      · rw [if_neg hj, if_neg hj]
        exact measure_univ
    rw [Finset.prod_congr rfl hfac, Fintype.prod_ite_mem]
  rw [h1]
  refine (Finset.prod_congr rfl fun i hi => ?_).symm
  rw [← map_eval_gaussianPi n i, Measure.map_apply (measurable_pi_apply i) (hsets i hi)]

lemma iIndepFun_payoff (s r sigma t k : ℝ) (n : ℕ) :
    iIndepFun (fun _ : Fin n => (inferInstance : MeasurableSpace ℝ))
      (fun i (z : Fin n → ℝ) => callPayoff s r sigma t k (z i)) (gaussianPi n) :=
  (iIndepFun_eval n).comp (fun _ => callPayoff s r sigma t k)
    fun _ => (continuous_callPayoff s r sigma t k).measurable

lemma integral_eval_comp (f : ℝ → ℝ) (hf : Continuous f) (n : ℕ) (i : Fin n) :
    ∫ z, f (z i) ∂(gaussianPi n) = ∫ x, f x ∂stdGaussian := by
  rw [← map_eval_gaussianPi n i,
    integral_map (measurable_pi_apply i).aemeasurable hf.aestronglyMeasurable]

lemma memLp_two_payoff_eval (s r sigma t k : ℝ) (hs : 0 ≤ s) (hk : 0 ≤ k) (n : ℕ) (i : Fin n) :
    Memℒp (fun z : Fin n → ℝ => callPayoff s r sigma t k (z i)) 2 (gaussianPi n) := by
  have h := memLp_two_callPayoff s r sigma t k hs hk
  rw [← map_eval_gaussianPi n i] at h
  exact (memℒp_map_measure_iff (continuous_callPayoff s r sigma t k).aestronglyMeasurable
    (measurable_pi_apply i).aemeasurable).mp h

lemma variance_payoff_eval (s r sigma t k : ℝ) (hs : 0 ≤ s) (hk : 0 ≤ k) (n : ℕ) (i : Fin n) :
    variance (fun z : Fin n → ℝ => callPayoff s r sigma t k (z i)) (gaussianPi n) =
      variance (callPayoff s r sigma t k) stdGaussian := by
  rw [variance_def' (memLp_two_payoff_eval s r sigma t k hs hk n i),
    variance_def' (memLp_two_callPayoff s r sigma t k hs hk)]
  simp only [Pi.pow_apply]
  rw [integral_eval_comp (callPayoff s r sigma t k) (continuous_callPayoff s r sigma t k) n i,
    integral_eval_comp (fun x => callPayoff s r sigma t k x ^ 2)
      ((continuous_callPayoff s r sigma t k).pow 2) n i]

lemma mcEstimate_memLp (s r sigma t k : ℝ) (hs : 0 ≤ s) (hk : 0 ≤ k) (n : ℕ) :
    Memℒp (mcEstimate s r sigma t k n) 2 (gaussianPi n) := by
  have h : mcEstimate s r sigma t k n =
      fun z => (Real.exp (-(r * t)) / n) *
        (∑ i, fun z : Fin n → ℝ => callPayoff s r sigma t k (z i)) z := by
    funext z
    rw [mcEstimate, Finset.sum_apply]
    ring
  rw [h]
  exact (memℒp_finset_sum' Finset.univ
    fun i _ => memLp_two_payoff_eval s r sigma t k hs hk n i).const_mul _

lemma integral_mcEstimate (s r sigma t k : ℝ) (hs : 0 ≤ s) (hk : 0 ≤ k) (n : ℕ) (hn : 1 ≤ n) :
    ∫ z, mcEstimate s r sigma t k n z ∂(gaussianPi n) =
      Real.exp (-(r * t)) * ∫ x, callPayoff s r sigma t k x ∂stdGaussian := by
  have h2 : ∫ z, mcEstimate s r sigma t k n z ∂(gaussianPi n) =
      (Real.exp (-(r * t)) / n) *
        ∫ z, (∑ i, callPayoff s r sigma t k (z i)) ∂(gaussianPi n) := by
    rw [← integral_mul_left]
    refine integral_congr_ae (Eventually.of_forall fun z => ?_)
    rw [mcEstimate]
    ring
  rw [h2, integral_finset_sum Finset.univ
    fun i _ => (memLp_two_payoff_eval s r sigma t k hs hk n i).integrable one_le_two]
  rw [Finset.sum_congr rfl fun i _ =>
    integral_eval_comp (callPayoff s r sigma t k) (continuous_callPayoff s r sigma t k) n i]
  rw [Finset.sum_const, Finset.card_univ, Fintype.card_fin, nsmul_eq_mul]
  have hne : (n : ℝ) ≠ 0 := Nat.cast_ne_zero.mpr (Nat.one_le_iff_ne_zero.mp hn)
  field_simp
  ring

lemma variance_mcEstimate (s r sigma t k : ℝ) (hs : 0 ≤ s) (hk : 0 ≤ k) (n : ℕ) :
    variance (mcEstimate s r sigma t k n) (gaussianPi n) =
      (Real.exp (-(r * t)) / n) ^ 2 *
        (n * variance (callPayoff s r sigma t k) stdGaussian) := by
  have hXm : ∀ i ∈ (Finset.univ : Finset (Fin n)),
      Memℒp (fun z : Fin n → ℝ => callPayoff s r sigma t k (z i)) 2 (gaussianPi n) :=
    fun i _ => memLp_two_payoff_eval s r sigma t k hs hk n i
  have hXind : Set.Pairwise ↑(Finset.univ : Finset (Fin n)) fun i j =>
      IndepFun (fun z : Fin n → ℝ => callPayoff s r sigma t k (z i))
        (fun z : Fin n → ℝ => callPayoff s r sigma t k (z j)) (gaussianPi n) :=
    fun i _ j _ hij => (iIndepFun_payoff s r sigma t k n).indepFun hij
  have hsum := IndepFun.variance_sum hXm hXind
  have hfun : mcEstimate s r sigma t k n =
      fun z => (Real.exp (-(r * t)) / n) *
        (∑ i, fun z : Fin n → ℝ => callPayoff s r sigma t k (z i)) z := by
    funext z
    rw [mcEstimate, Finset.sum_apply]
    ring
  rw [hfun, variance_mul, hsum]
  congr 1
  rw [Finset.sum_congr rfl fun i _ => variance_payoff_eval s r sigma t k hs hk n i,
    Finset.sum_const, Finset.card_univ, Fintype.card_fin, nsmul_eq_mul]

lemma monte_carlo_ofFn (s r sigma t k : ℝ) (hs : 0 < s) (hsig : 0 < sigma) (ht : 0 < t)
    (hk : 0 < k) (n : ℕ) (hn : 1 ≤ n) (z : Fin n → ℝ) :
    monte_carlo_call_price s r sigma t k (List.ofFn z) =
      .ok (mcEstimate s r sigma t k n z) := by
  have hguard : ¬(s ≤ 0 ∨ sigma ≤ 0 ∨ t ≤ 0 ∨ k ≤ 0 ∨ (List.ofFn z).length < 1) := by
    push_neg
    exact ⟨hs, hsig, ht, hk, by simpa [List.length_ofFn] using hn⟩
  simp only [monte_carlo_call_price, if_neg hguard]
  congr 1
  rw [option_value_estimate, mcEstimate, bsmVec_eq_map, List.map_ofFn, List.map_ofFn,
    List.sum_ofFn, List.length_ofFn]
  rfl

/-- C1: for every spot `s_0`, rate `r`, volatility `sigma`, maturity `t` and
standard-normal draw, the terminal-price sampler `bsm` returns exactly
`s_0 * exp((r - sigma^2/2)*t + sigma*sqrt(t)*z)`, applied elementwise when the
draw argument is a vector. -/
theorem bsm_terminal_price_formula (s_0 r sigma t z : ℝ) (zs : List ℝ) :
    bsm s_0 r sigma t z =
      s_0 * Real.exp ((r - sigma ^ 2 / 2) * t + sigma * Real.sqrt t * z) ∧
    bsmVec s_0 r sigma t zs =
      zs.map fun w => s_0 * Real.exp ((r - sigma ^ 2 / 2) * t + sigma * Real.sqrt t * w) := by
  refine ⟨bsm_eq_halfsq s_0 r sigma t z, ?_⟩
  rw [bsmVec_eq_map]
  exact List.map_congr_left fun w _ => bsm_eq_halfsq s_0 r sigma t w

/-- C4: the batched sampler result is exactly the elementwise map of the scalar
sampler over the draw vector; every output element is the scalar `bsm` of its
own draw, with no cross-element computation. -/
theorem bsm_batch_refines_scalar (s_0 r sigma t : ℝ) (zs : List ℝ) :
    bsmVec s_0 r sigma t zs = zs.map (bsm s_0 r sigma t) := by
  simp only [bsmVec, List.map_map]
  rfl

/-- C8: the terminal-price transform `bsm` is pure and deterministic: two
invocations on identical arguments return identical results. -/
theorem bsm_pure_deterministic (s_0 r sigma t z s_0' r' sigma' t' z' : ℝ)
    (h₁ : s_0 = s_0') (h₂ : r = r') (h₃ : sigma = sigma') (h₄ : t = t') (h₅ : z = z') :
    bsm s_0 r sigma t z = bsm s_0' r' sigma' t' z' := by
  rw [h₁, h₂, h₃, h₄, h₅]

theorem bsm_pure_deterministic_witness :
    bsm 100 0.03 0.4 0.25 1 = bsm 100 0.03 0.4 0.25 1 :=
  bsm_pure_deterministic 100 0.03 0.4 0.25 1 100 0.03 0.4 0.25 1 rfl rfl rfl rfl rfl

/-- C9: for positive spot and nonnegative maturity the sampler output is
strictly positive, for any rate, volatility and draw; hence every element of a
simulated terminal-price set is positive. -/
theorem bsm_strictly_positive (s_0 r sigma t z : ℝ) (zs : List ℝ)
    (hs : 0 < s_0) (ht : 0 ≤ t) :
    0 < bsm s_0 r sigma t z ∧ ∀ x ∈ bsmVec s_0 r sigma t zs, 0 < x := by
  constructor
  · exact mul_pos hs (Real.exp_pos _)
  · intro x hx
    rw [bsmVec_eq_map] at hx
    obtain ⟨w, -, rfl⟩ := List.mem_map.mp hx
    exact mul_pos hs (Real.exp_pos _)

theorem bsm_strictly_positive_witness :
    0 < bsm 1 0 1 0 0 ∧ ∀ x ∈ bsmVec 1 0 1 0 ([] : List ℝ), 0 < x :=
  bsm_strictly_positive 1 0 1 0 0 ([] : List ℝ) one_pos le_rfl

/-- C10: `bsm` is total on all real inputs: it returns the GBM formula value
even when the positivity preconditions are violated, and at `t = 0` it returns
exactly `s_0` for every volatility and draw. -/
theorem bsm_total_on_all_inputs (s_0 r sigma t z : ℝ) :
    bsm s_0 r sigma t z =
      s_0 * Real.exp ((r - 0.5 * sigma * sigma) * t + sigma * Real.sqrt t * z) ∧
    bsm s_0 r sigma 0 z = s_0 := by
  refine ⟨rfl, ?_⟩
  simp [bsm]

/-- C3 fails on the code: the sampler `bsm`, the one public pricing operation
present in the source, performs no boundary validation; at spot `-1` it
proceeds to compute and returns a negative price instead of raising. -/
theorem bsm_computes_on_invalid_spot : bsm (-1) 0 1 1 0 < 0 := by
  have h := Real.exp_pos ((0 - 0.5 * 1 * 1) * 1 + 1 * Real.sqrt 1 * 0)
  unfold bsm
  nlinarith [h]

/-- C3 amended: the spec-modelled pricing operations (`call`,
`monte_carlo_call_price`) reject invalid inputs at the boundary with
`invalidParameter` and never coerce them, but the source's sampler `bsm`
performs no validation and evaluates the GBM formula on any input, including
nonpositive spot. -/
theorem boundary_validation_amended :
    (∀ s r sigma t k : ℝ, (s ≤ 0 ∨ sigma ≤ 0 ∨ t ≤ 0 ∨ k ≤ 0) →
        call s r sigma t k = .error .invalidParameter) ∧
    (∀ (s r sigma t k : ℝ) (zs : List ℝ),
        (s ≤ 0 ∨ sigma ≤ 0 ∨ t ≤ 0 ∨ k ≤ 0 ∨ zs.length < 1) →
        monte_carlo_call_price s r sigma t k zs = .error .invalidParameter) ∧
    ∀ s_0 r sigma t z : ℝ, s_0 ≤ 0 →
      bsm s_0 r sigma t z =
        s_0 * Real.exp ((r - 0.5 * sigma * sigma) * t + sigma * Real.sqrt t * z) := by
  refine ⟨fun s r sigma t k h => ?_, fun s r sigma t k zs h => ?_,
    fun _ _ _ _ _ _ => rfl⟩
  · simp only [call, if_pos h]
  · simp only [monte_carlo_call_price, if_pos h]

theorem boundary_validation_amended_witness :
    call (-1) 0 1 1 1 = .error .invalidParameter ∧
    monte_carlo_call_price 1 0 1 1 1 ([] : List ℝ) = .error .invalidParameter ∧
    bsm (-1) 0 1 1 0 =
      (-1) * Real.exp ((0 - 0.5 * 1 * 1) * 1 + 1 * Real.sqrt 1 * 0) :=
  ⟨boundary_validation_amended.1 (-1) 0 1 1 1 (Or.inl (neg_nonpos.mpr zero_le_one)),
    boundary_validation_amended.2.1 1 0 1 1 1 ([] : List ℝ)
      (Or.inr (Or.inr (Or.inr (Or.inr (by decide))))),
    boundary_validation_amended.2.2 (-1) 0 1 1 0 (neg_nonpos.mpr zero_le_one)⟩

/-- C2: on positive spot, strike, volatility and maturity, the closed-form
evaluator returns `Φ(d₁)·S₀ − Φ(d₂)·K·e^(−r·t)` with `d₁` and `d₂` as in the
design document and Φ the standard normal CDF. -/
theorem call_closed_form_value (s r sigma t k : ℝ)
    (hs : 0 < s) (hk : 0 < k) (hsig : 0 < sigma) (ht : 0 < t) :
    call s r sigma t k =
      .ok (standard_normal_cdf (d1 s r sigma t k) * s -
        standard_normal_cdf (d2 s r sigma t k) * k * Real.exp (-(r * t))) := by
  have h : ¬(s ≤ 0 ∨ sigma ≤ 0 ∨ t ≤ 0 ∨ k ≤ 0) := by
    push_neg
    exact ⟨hs, hsig, ht, hk⟩
  simp only [call, if_neg h, bsmCallFormula]

theorem call_closed_form_value_witness :
    call 1 0 1 1 1 =
      .ok (standard_normal_cdf (d1 1 0 1 1 1) * 1 -
        standard_normal_cdf (d2 1 0 1 1 1) * 1 * Real.exp (-(0 * 1))) :=
  call_closed_form_value 1 0 1 1 1 one_pos one_pos one_pos one_pos

/-- C7: calling the closed-form evaluator with zero volatility or zero maturity
is rejected at the boundary with an `invalidParameter` error; no numeric value
is returned, so no NaN or infinity can propagate. -/
theorem call_rejects_degenerate (s r sigma t k : ℝ) (h : sigma = 0 ∨ t = 0) :
    call s r sigma t k = .error .invalidParameter := by
  rcases h with h' | h'
  · simp only [call, if_pos (Or.inr (Or.inl h'.le))]
  · simp only [call, if_pos (Or.inr (Or.inr (Or.inl h'.le)))]

theorem call_rejects_degenerate_witness :
    call 100 0.03 0 0.25 105 = .error .invalidParameter :=
  call_rejects_degenerate 100 0.03 0 0.25 105 (Or.inl rfl)

/-- C5: on every valid parameter set (positive spot, volatility, maturity and
strike, sample count at least one) both the Monte Carlo estimator and the
closed-form evaluator return a nonnegative price. -/
theorem pricing_results_nonneg (s r sigma t k : ℝ) (zs : List ℝ)
    (hs : 0 < s) (hsig : 0 < sigma) (ht : 0 < t) (hk : 0 < k) (hn : 1 ≤ zs.length) :
    (∃ v, monte_carlo_call_price s r sigma t k zs = .ok v ∧ 0 ≤ v) ∧
    ∃ p, call s r sigma t k = .ok p ∧ 0 ≤ p := by
  constructor
  · refine ⟨option_value_estimate r t k (bsmVec s r sigma t zs), ?_, ?_⟩
    · have hguard : ¬(s ≤ 0 ∨ sigma ≤ 0 ∨ t ≤ 0 ∨ k ≤ 0 ∨ zs.length < 1) := by
        push_neg
        exact ⟨hs, hsig, ht, hk, hn⟩
      simp only [monte_carlo_call_price, if_neg hguard]
    · unfold option_value_estimate
      apply mul_nonneg (Real.exp_pos _).le
      apply div_nonneg _ (Nat.cast_nonneg _)
      apply List.sum_nonneg
      intro y hy
      obtain ⟨si, -, rfl⟩ := List.mem_map.mp hy
      exact le_max_right _ _
  · refine ⟨bsmCallFormula s r sigma t k, ?_, bsmCallFormula_nonneg s r sigma t k hs hk hsig ht⟩
    have hguard : ¬(s ≤ 0 ∨ sigma ≤ 0 ∨ t ≤ 0 ∨ k ≤ 0) := by
      push_neg
      exact ⟨hs, hsig, ht, hk⟩
    simp only [call, if_neg hguard]

theorem pricing_results_nonneg_witness :
    ((∃ v, monte_carlo_call_price 1 0 1 1 1 ([0] : List ℝ) = .ok v ∧ 0 ≤ v) ∧
      ∃ p, call 1 0 1 1 1 = .ok p ∧ 0 ≤ p) :=
  pricing_results_nonneg 1 0 1 1 1 ([0] : List ℝ) one_pos one_pos one_pos one_pos (le_refl 1)

/-- C6: on every valid parameter set, the Monte Carlo estimate on `n` independent
standard-normal draws is the value returned by `monte_carlo_call_price`, and as
`n` tends to infinity it converges in probability (under the joint law of the
draws) to the closed-form Black-Scholes-Merton price of the same parameters. -/
theorem monte_carlo_converges_to_closed_form (s r sigma t k : ℝ)
    (hs : 0 < s) (hsig : 0 < sigma) (ht : 0 < t) (hk : 0 < k) :
    (∀ (n : ℕ) (z : Fin n → ℝ), 1 ≤ n →
        monte_carlo_call_price s r sigma t k (List.ofFn z) =
          .ok (mcEstimate s r sigma t k n z)) ∧
    ∀ ε : ℝ, 0 < ε →
      Tendsto (fun n =>
          gaussianPi n
            {z | ε ≤ |mcEstimate s r sigma t k n z - bsmCallFormula s r sigma t k|})
        atTop (𝓝 0) := by
  constructor
  · intro n z hn
    exact monte_carlo_ofFn s r sigma t k hs hsig ht hk n hn z
  · intro ε hε
    have hboundn : ∀ n : ℕ, 1 ≤ n →
        gaussianPi n
            {z | ε ≤ |mcEstimate s r sigma t k n z - bsmCallFormula s r sigma t k|} ≤
          ENNReal.ofReal ((Real.exp (-(r * t)) ^ 2 *
            variance (callPayoff s r sigma t k) stdGaussian / ε ^ 2) / n) := by
      intro n hn
      have hmean : ∫ z, mcEstimate s r sigma t k n z ∂(gaussianPi n) =
          bsmCallFormula s r sigma t k := by
        rw [integral_mcEstimate s r sigma t k hs.le hk.le n hn,
          ← bsmCallFormula_eq_discounted_integral s r sigma t k hs hk hsig ht]
      have hcheb := meas_ge_le_variance_div_sq (μ := gaussianPi n)
        (mcEstimate_memLp s r sigma t k hs.le hk.le n) hε
      rw [hmean] at hcheb
      refine le_trans hcheb (ENNReal.ofReal_le_ofReal (le_of_eq ?_))
      rw [variance_mcEstimate s r sigma t k hs.le hk.le n]
      have hne : (n : ℝ) ≠ 0 := Nat.cast_ne_zero.mpr (Nat.one_le_iff_ne_zero.mp hn)
      field_simp
      ring
    refine tendsto_of_tendsto_of_tendsto_of_le_of_le'
      (h := fun n : ℕ => ENNReal.ofReal ((Real.exp (-(r * t)) ^ 2 *
        variance (callPayoff s r sigma t k) stdGaussian / ε ^ 2) / n))
      tendsto_const_nhds ?_ (Eventually.of_forall fun n => zero_le _) ?_
    · have h0 := tendsto_const_div_atTop_nhds_zero_nat
        (Real.exp (-(r * t)) ^ 2 * variance (callPayoff s r sigma t k) stdGaussian / ε ^ 2)
      have h1 := ENNReal.tendsto_ofReal h0
      rwa [ENNReal.ofReal_zero] at h1
    · filter_upwards [eventually_ge_atTop 1] with n hn
      exact hboundn n hn

theorem monte_carlo_converges_to_closed_form_witness :
    monte_carlo_call_price 1 0 1 1 1 (List.ofFn fun _ : Fin 1 => (0 : ℝ)) =
      .ok (mcEstimate 1 0 1 1 1 1 fun _ => (0 : ℝ)) ∧
    Tendsto (fun n =>
        gaussianPi n {z | 1 ≤ |mcEstimate 1 0 1 1 1 n z - bsmCallFormula 1 0 1 1 1|})
      atTop (𝓝 0) :=
  ⟨(monte_carlo_converges_to_closed_form 1 0 1 1 1 one_pos one_pos one_pos one_pos).1 1
      (fun _ => (0 : ℝ)) le_rfl,
    (monte_carlo_converges_to_closed_form 1 0 1 1 1 one_pos one_pos one_pos one_pos).2 1
      one_pos⟩

end QfrmBsm
